import Mathlib

/-!
Verification of `build_index.py` (FreeCAD-library index generator).

The program walks a directory tree of `.FCStd` documents, extracts embedded
thumbnails, and renders a static HTML catalog.  This file gives a shallow
embedding of its functions (`clean_path`, `get_hashname`, `get_icon`,
`build_card`, `build_title`, `build_html`, and the final template assembly)
and proves the specification claims about them.

Modelling conventions:
* Filesystem paths inside the base directory (`homefolder = Path.cwd()`) are
  represented by their list of path components relative to the base, e.g.
  `home/Arch/part.FCStd` is `["Arch", "part.FCStd"]`.  `Path.resolve()`
  followed by `Path.relative_to(homefolder)` maps such a path exactly to
  these components, and `str()` joins them with "/".
* A directory tree is the inductive `FSEntry`; the order of children in a
  `dir` node is the (OS-dependent) order returned by `Path.iterdir()`.
  A directory whose listing raises `OSError` is modelled with `ok = false`.
* The outcome of zip-archive access for a document file (`zipfile.ZipFile`,
  `namelist`, `read`, and the thumbnail write) is modelled by the
  `ThumbOutcome` stored in the `file` node: each constructor corresponds to
  one exit path of `get_icon`'s `try` block.
* Python `int` arithmetic in the MD5 model is `Nat` with explicit `% 2^32`.
-/

namespace BuildIndex

/-- ASCII lower-casing of one character, as `str.lower()` acts on ASCII;
the extension strings compared against (".fcstd") are ASCII. -/
def lowerChar (c : Char) : Char :=
  if 'A' ≤ c ∧ c ≤ 'Z' then Char.ofNat (c.toNat + 32) else c

/-- Model of Python `str.lower()` restricted to ASCII letters. -/
def lowerStr (s : String) : String := s.map lowerChar

/-- Number of characters strictly after the last '.' of the list, or the
whole length when there is no '.'; helper for `pathlib` stem/suffix. -/
def afterLastDot (cs : List Char) : Nat :=
  (cs.reverse.takeWhile (fun c => c ≠ '.')).length

/-- Model of `pathlib.PurePath.stem` on a file name: the name up to its last
extension.  Python takes the suffix to start at the last '.' provided that
dot is neither the first nor the last character (`0 < i < len(name) - 1`);
otherwise the stem is the whole name. -/
def pathStem (name : String) : String :=
  let cs := name.data
  if 1 ≤ afterLastDot cs ∧ afterLastDot cs + 1 < cs.length then
    String.mk (cs.take (cs.length - afterLastDot cs - 1))
  else name

/-- Model of `pathlib.PurePath.suffix` on a file name: the last extension
including its dot, or "" when the last dot is absent, first, or last. -/
def pathSuffix (name : String) : String :=
  let cs := name.data
  if 1 ≤ afterLastDot cs ∧ afterLastDot cs + 1 < cs.length then
    String.mk (cs.drop (cs.length - afterLastDot cs - 1))
  else ""

/-- Model of `PurePath.with_suffix(ext).name`: replace the last extension of
the name by `ext` (append `ext` when the name has no extension).  This equals
stem ++ ext. -/
def withSuffix (name ext : String) : String := pathStem name ++ ext

/-- Characters `urllib.parse.quote` leaves unchanged with its default
`safe="/"`: the RFC 3986 unreserved characters plus '/'. -/
def isSafeChar (c : Char) : Bool :=
  ('A' ≤ c && c ≤ 'Z') || ('a' ≤ c && c ≤ 'z') || ('0' ≤ c && c ≤ '9') ||
  c == '_' || c == '.' || c == '-' || c == '~' || c == '/'

/-- Upper-case hexadecimal digit for `n < 16`, as `quote` emits. -/
def hexUChar (n : Nat) : Char :=
  if n < 10 then Char.ofNat (48 + n) else Char.ofNat (55 + n)

/-- UTF-8 encoding of a Unicode code point as a list of byte values;
`str.encode()` applies this to every character. -/
def utf8Bytes (n : Nat) : List Nat :=
  if n < 128 then [n]
  else if n < 2048 then [192 + n / 64, 128 + n % 64]
  else if n < 65536 then [224 + n / 4096, 128 + n / 64 % 64, 128 + n % 64]
  else [240 + n / 262144, 128 + n / 4096 % 64, 128 + n / 64 % 64, 128 + n % 64]

/-- Percent-encoding of one byte value, "%XX" with upper-case hex. -/
def percentEncodeByte (b : Nat) : List Char :=
  ['%', hexUChar (b / 16 % 16), hexUChar (b % 16)]

/-- Encoding of one character under `urllib.parse.quote(_, safe="/")`: safe
characters pass through, every other character is replaced by the
percent-encoding of each byte of its UTF-8 encoding.  (`quote` works byte
by byte on the UTF-8 encoding; all safe bytes are ASCII and all bytes of a
multi-byte character are ≥ 0x80, hence unsafe, so per-character processing
is equivalent.) -/
def quoteChar (c : Char) : List Char :=
  if isSafeChar c then [c] else (utf8Bytes c.toNat).flatMap percentEncodeByte

/-- Model of `urllib.parse.quote(s, safe="/")`. -/
def quote (s : String) : String := String.mk (s.data.flatMap quoteChar)

/-- Strip one single leading '/', as
`if filepath_str.startswith("/"): filepath_str = filepath_str[1:]`. -/
def stripSlashChars (l : List Char) : List Char :=
  match l with
  | c :: rest => if c = '/' then rest else c :: rest
  | [] => []

/-- Model of `str(filepath).replace("\\", "/")` at character level. -/
def replaceBackslash (cs : List Char) : List Char :=
  cs.map (fun c => if c == '\\' then '/' else c)

/-- Core of `clean_path` on the string form of a path: replace backslashes,
strip a single leading slash, percent-encode. -/
def clean_path_string (s : String) : String :=
  quote (String.mk (stripSlashChars (replaceBackslash s.data)))

/-- Joining path components with "/", as `str()` of a relative `Path`. -/
def joinSlash : List String → String
  | [] => ""
  | [s] => s
  | s :: rest => s ++ "/" ++ joinSlash rest

/-- Model of `clean_path` for a path inside the base directory, given by its
components relative to `homefolder`: `resolve()` + `relative_to(homefolder)`
yield exactly these components, whose string form is joined with "/". -/
def clean_path (components : List String) : String :=
  clean_path_string (joinSlash components)

/-- Value of the module constant `baseurl`. -/
def baseurl : String := "https://github.com/FreeCAD/FreeCAD-library/blob/master/"

/-- Names excluded from traversal (`excludelist = {"thumbnails"}`). -/
def excludelist : List String := ["thumbnails"]

/-- Name of `imagefolder = Path("thumbnails")`. -/
def imagefolderName : String := "thumbnails"

/-- Components of `defaulticon = imagefolder / "freecad-document.svg"`. -/
def defaulticon : List String := ["thumbnails", "freecad-document.svg"]

/-- Components of `gridicon`. -/
def gridicon : List String := ["thumbnails", "icon-grid.svg"]

/-- Components of `listicon`. -/
def listicon : List String := ["thumbnails", "icon-list.svg"]

/-- Components of `stepicon`. -/
def stepicon : List String := ["thumbnails", "icon-grey.svg"]

/-- Components of `brepicon`. -/
def brepicon : List String := ["thumbnails", "icon-blue.svg"]

/-- Components of `stlicon`. -/
def stlicon : List String := ["thumbnails", "icon-green.svg"]

/-- Components of `collapseicon`. -/
def collapseicon : List String := ["thumbnails", "icon-right.svg"]

/-- Components of `expandicon`. -/
def expandicon : List String := ["thumbnails", "icon-down.svg"]

/-! Model of `hashlib.md5(...).hexdigest()` (RFC 1321), used by
`get_hashname`.  Words are `Nat` kept below `2^32` by explicit reduction. -/

/-- The modulus `2^32` for MD5 word arithmetic. -/
def M32 : Nat := 4294967296

/-- Addition modulo `2^32`. -/
def add32 (a b : Nat) : Nat := (a + b) % M32

/-- Bitwise complement of a word `x < 2^32`. -/
def not32 (x : Nat) : Nat := M32 - 1 - x

/-- Left-rotation of a word `x < 2^32` by `s` bits (`0 < s < 32`). -/
def rotl32 (x s : Nat) : Nat := (x * 2 ^ s + x / 2 ^ (32 - s)) % M32

/-- Round function of MD5: F, G, H, I depending on the round index. -/
def md5Mix (i b c d : Nat) : Nat :=
  if i < 16 then (b &&& c) ||| (not32 b &&& d)
  else if i < 32 then (d &&& b) ||| (not32 d &&& c)
  else if i < 48 then b ^^^ c ^^^ d
  else c ^^^ (b ||| not32 d)

/-- Message-word index used at round `i` of MD5. -/
def md5MsgIdx (i : Nat) : Nat :=
  if i < 16 then i
  else if i < 32 then (5 * i + 1) % 16
  else if i < 48 then (3 * i + 5) % 16
  else (7 * i) % 16

/-- Per-round left-rotation amounts of MD5. -/
def md5Shift : List Nat :=
  [7, 12, 17, 22, 7, 12, 17, 22, 7, 12, 17, 22, 7, 12, 17, 22,
   5, 9, 14, 20, 5, 9, 14, 20, 5, 9, 14, 20, 5, 9, 14, 20,
   4, 11, 16, 23, 4, 11, 16, 23, 4, 11, 16, 23, 4, 11, 16, 23,
   6, 10, 15, 21, 6, 10, 15, 21, 6, 10, 15, 21, 6, 10, 15, 21]

/-- The 64 sine-derived constants of MD5. -/
def md5K : List Nat :=
  [0xd76aa478, 0xe8c7b756, 0x242070db, 0xc1bdceee,
   0xf57c0faf, 0x4787c62a, 0xa8304613, 0xfd469501,
   0x698098d8, 0x8b44f7af, 0xffff5bb1, 0x895cd7be,
   0x6b901122, 0xfd987193, 0xa679438e, 0x49b40821,
   0xf61e2562, 0xc040b340, 0x265e5a51, 0xe9b6c7aa,
   0xd62f105d, 0x02441453, 0xd8a1e681, 0xe7d3fbc8,
   0x21e1cde6, 0xc33707d6, 0xf4d50d87, 0x455a14ed,
   0xa9e3e905, 0xfcefa3f8, 0x676f02d9, 0x8d2a4c8a,
   0xfffa3942, 0x8771f681, 0x6d9d6122, 0xfde5380c,
   0xa4beea44, 0x4bdecfa9, 0xf6bb4b60, 0xbebfbc70,
   0x289b7ec6, 0xeaa127fa, 0xd4ef3085, 0x04881d05,
   0xd9d4d039, 0xe6db99e5, 0x1fa27cf8, 0xc4ac5665,
   0xf4292244, 0x432aff97, 0xab9423a7, 0xfc93a039,
   0x655b59c3, 0x8f0ccc92, 0xffeff47d, 0x85845dd1,
   0x6fa87e4f, 0xfe2ce6e0, 0xa3014314, 0x4e0811a1,
   0xf7537e82, 0xbd3af235, 0x2ad7d2bb, 0xeb86d391]

/-- One round of the MD5 compression function on state (A, B, C, D), with
`M` the sixteen message words of the current block. -/
def md5Round (M : List Nat) (st : Nat × Nat × Nat × Nat) (i : Nat) :
    Nat × Nat × Nat × Nat :=
  let (a, b, c, d) := st
  let f := (md5Mix i b c d + a + md5K.getD i 0 + M.getD (md5MsgIdx i) 0) % M32
  (d, add32 b (rotl32 f (md5Shift.getD i 0)), b, c)

/-- MD5 compression of one 64-byte block given as sixteen words. -/
def md5Block (st : Nat × Nat × Nat × Nat) (M : List Nat) :
    Nat × Nat × Nat × Nat :=
  let (a0, b0, c0, d0) := st
  let (a, b, c, d) := (List.range 64).foldl (md5Round M) st
  (add32 a0 a, add32 b0 b, add32 c0 c, add32 d0 d)

/-- Little-endian byte decomposition of `n` into `k` bytes. -/
def toLEBytes (n k : Nat) : List Nat :=
  (List.range k).map (fun i => n / 256 ^ i % 256)

/-- MD5 padding: append 0x80, zero-pad to 56 mod 64, append the bit length
as eight little-endian bytes (modulo `2^64` via the byte decomposition). -/
def md5Pad (msg : List Nat) : List Nat :=
  msg ++ [128] ++ List.replicate ((119 - msg.length % 64) % 64) 0 ++
    toLEBytes (msg.length * 8) 8

/-- Splitting a byte list into successive 64-byte chunks; the first
argument is recursion fuel, any bound on the number of chunks (the list
length suffices). -/
def chunk64Aux : Nat → List Nat → List (List Nat)
  | _, [] => []
  | 0, l => [l]
  | fuel + 1, b :: bs => (b :: bs).take 64 :: chunk64Aux fuel ((b :: bs).drop 64)

/-- Splitting a byte list into successive 64-byte chunks. -/
def chunk64 (l : List Nat) : List (List Nat) := chunk64Aux l.length l

/-- The sixteen little-endian message words of one 64-byte block. -/
def bytesToWords (block : List Nat) : List Nat :=
  (List.range 16).map (fun j =>
    block.getD (4 * j) 0 + 256 * block.getD (4 * j + 1) 0 +
    65536 * block.getD (4 * j + 2) 0 + 16777216 * block.getD (4 * j + 3) 0)

/-- Initial MD5 state. -/
def md5Init : Nat × Nat × Nat × Nat :=
  (0x67452301, 0xefcdab89, 0x98badcfe, 0x10325476)

/-- The four state words after digesting a byte message. -/
def md5Words (msg : List Nat) : Nat × Nat × Nat × Nat :=
  (chunk64 (md5Pad msg)).foldl (fun st blk => md5Block st (bytesToWords blk))
    md5Init

/-- Little-endian serialisation of one state word as four bytes. -/
def wordLEBytes (w : Nat) : List Nat :=
  [w % 256, w / 256 % 256, w / 65536 % 256, w / 16777216 % 256]

/-- Lower-case hexadecimal digit for `n < 16`, as `hexdigest` emits. -/
def hexLChar (n : Nat) : Char :=
  if n < 10 then Char.ofNat (48 + n) else Char.ofNat (87 + n)

/-- The two hex characters of one byte value (`b < 256`; the reductions
`% 16` make totality explicit and equal `b >> 4` and `b & 15` there). -/
def byteHexChars (b : Nat) : List Char :=
  [hexLChar (b / 16 % 16), hexLChar (b % 16)]

/-- The sixteen digest bytes of a byte message. -/
def md5Digest (msg : List Nat) : List Nat :=
  let (a, b, c, d) := md5Words msg
  wordLEBytes a ++ wordLEBytes b ++ wordLEBytes c ++ wordLEBytes d

/-- UTF-8 byte encoding of a string, as Python `str.encode()`. -/
def strBytes (s : String) : List Nat :=
  s.data.flatMap (fun c => utf8Bytes c.toNat)

/-- Model of `hashlib.md5(s.encode()).hexdigest()`. -/
def md5hex (s : String) : String :=
  String.mk ((md5Digest (strBytes s)).flatMap byteHexChars)

/-- Model of `get_hashname`: the thumbnail cache filename for a document
path, the MD5 hex digest of the cleaned path followed by ".png". -/
def get_hashname (filepath : List String) : String :=
  md5hex (clean_path filepath) ++ ".png"

/-! Data model of the traversed directory tree and of archive access. -/

/-- Outcome of the zip-archive access `get_icon` performs on one document:
one constructor per exit path of its `try` block.  `openFail` models
`zipfile.ZipFile(filepath)` raising (corrupt file, wrong format, permission
error, directory); `noEntry` models "thumbnails/Thumbnail.png" absent from
`namelist()`; `ioFail` models `read` or the thumbnail `open`/`write`
raising; `written existsAfter` models a completed write, with `existsAfter`
the result of the final `iconpath.exists()` check. -/
inductive ThumbOutcome where
  | openFail (msg : String)
  | noEntry
  | ioFail (msg : String)
  | written (existsAfter : Bool)
deriving DecidableEq

/-- A directory-tree snapshot.  `file name outcome` is a non-directory entry
together with its archive-access outcome; `dir name ok children` is a
directory whose `iterdir()` returns `children` in that (OS-dependent) order
when `ok`, and raises `OSError` when `ok = false`. -/
inductive FSEntry where
  | file (name : String) (outcome : ThumbOutcome)
  | dir (name : String) (ok : Bool) (children : List FSEntry)

/-- The `p.name` of an entry. -/
def FSEntry.name : FSEntry → String
  | .file n _ => n
  | .dir n _ _ => n

/-- The `p.is_dir()` of an entry. -/
def FSEntry.isDir : FSEntry → Bool
  | .file _ _ => false
  | .dir _ _ _ => true

/-- Archive-access outcome of an entry when `build_card` reaches it: for a
directory entry (one may carry the document extension) `zipfile.ZipFile`
raises `IsADirectoryError`, an `openFail`. -/
def FSEntry.outcome : FSEntry → ThumbOutcome
  | .file _ o => o
  | .dir _ _ _ => ThumbOutcome.openFail "IsADirectoryError"

/-- Model of `get_icon`: the icon path (components inside the base
directory) for a document, given the archive-access outcome.  Every failure
and the missing-entry case yield `defaulticon`; after a successful write
the hashed name inside `imagefolder` is returned if the written path
exists, `defaulticon` otherwise. -/
def get_icon (filepath : List String) (o : ThumbOutcome) : List String :=
  let iconname := get_hashname filepath
  let iconurl := [imagefolderName, iconname]
  match o with
  | .openFail _ => defaulticon
  | .noEntry => defaulticon
  | .ioFail _ => defaulticon
  | .written existsAfter => if existsAfter then iconurl else defaulticon

/-- The `exts` table of `build_card`: the three format families in dict
insertion order, each with its extension spellings in declared order. -/
def exts : List (String × List String) :=
  [("STEP", [".stp", ".step", ".STP", ".STEP"]),
   ("BREP", [".brp", ".brep", ".BRP", ".BREP"]),
   ("STL", [".stl", ".STL"])]

/-- The `icons` table of `build_card`. -/
def icons : List (String × List String) :=
  [("STEP", stepicon), ("BREP", brepicon), ("STL", stlicon)]

/-- Lookup `icons[name_key]`; the default is never reached since every key
used comes from `exts`, whose keys all occur in `icons`. -/
def famIcon (k : String) : List String := (icons.lookup k).getD defaulticon

/-- The `?raw=true` suffix appended to every download link. -/
def raw : String := "?raw=true"

/-- The secondary links `build_card`'s family loop emits, as (family name,
sibling file name) pairs: for each family of `exts` in order, the first
extension in declared order whose candidate sibling exists, or nothing;
`break` after the first hit makes each family contribute at most its
first match.  The candidate is `basename.with_suffix(ext)` where
`basename = filepath.with_suffix("")` has name `stem`: `with_suffix`
replaces the stem's own last extension when the stem contains a further
dot (e.g. stem "part.v2" probes "part.stp"), hence `withSuffix stem ext`,
and existence is membership of that name among the siblings. -/
def card_links (siblings : List String) (stem : String) :
    List (String × String) :=
  exts.filterMap (fun fe =>
    (fe.2.find? (fun ext => siblings.contains (withSuffix stem ext))).map
      (fun ext => (fe.1, withSuffix stem ext)))

/-- HTML of one secondary link of a card. -/
def link_html (parent : List String) (l : String × String) : String :=
  " <a href=\"" ++ baseurl ++ clean_path (parent ++ [l.2]) ++ raw ++
  "\" title=\"" ++ l.1 ++ " version\">" ++
  "<img src=\"" ++ clean_path (famIcon l.1) ++ "\"/>" ++ "</a>"

/-- HTML of the family-links loop of `build_card`. -/
def links_html (parent siblings : List String) (stem : String) : String :=
  String.join ((card_links siblings stem).map (link_html parent))

/-- Model of `build_card` for the file `parent ++ [fname]`: `siblings` are
the names of all entries of the parent directory, so `Path.exists()` for
the file and for each probed sibling is membership there.  A missing file
yields the empty string. -/
def build_card (o : ThumbOutcome) (parent siblings : List String)
    (fname : String) : String :=
  if siblings.contains fname then
    let nm := pathStem fname
    let iconpath := get_icon (parent ++ [fname]) o
    let fileurl := baseurl ++ clean_path (parent ++ [fname]) ++ raw
    "<div class=\"card\">" ++
    "<a title=\"FCSTD version\" href=\"" ++ fileurl ++ "\">" ++
    "<img class=\"icon\" src=\"" ++ clean_path iconpath ++ "\"/>" ++
    "<div class=\"name\">" ++ nm ++ "</div>" ++
    "</a>" ++
    "<div class=\"links\">" ++
    links_html parent siblings nm ++
    "</div>" ++ "</div>\n"
  else ""

/-- The collapse-icon img prefixed to every section title. -/
def collapseImg : String :=
  "<img class=\"hicon\" src=\"" ++ clean_path collapseicon ++ "\"/>"

/-- Model of `build_title`: no title at level 1; a heading element
`<h{level}>` for levels below 7; a div with class `h{level}` from level 7
on. -/
def build_title (dirname : String) (level : Nat) : String :=
  if level = 1 then ""
  else
    let sl := toString level
    let sn := collapseImg ++ dirname
    if level < 7 then
      "<h" ++ sl ++ " onclick=\"collapse(this.children[0])\">" ++ sn ++
      "</h" ++ sl ++ ">\n"
    else
      "<div class=\"h" ++ sl ++ "\" onclick=\"collapse(this.children[0])\">" ++
      sn ++ "</div>\n"

/-- Lexicographic comparison of character lists by code point, the order
Python uses to compare the (string) names of paths in one directory. -/
def charListLe : List Char → List Char → Bool
  | [], _ => true
  | _ :: _, [] => false
  | a :: as, b :: bs =>
    if a < b then true else if b < a then false else charListLe as bs

theorem charListLe_total : ∀ a b : List Char,
    charListLe a b = true ∨ charListLe b a = true := by
  intro a
  induction a with
  | nil => intro b; exact Or.inl rfl
  | cons x xs ih =>
    intro b
    cases b with
    | nil => exact Or.inr rfl
    | cons y ys =>
      by_cases hxy : x < y
      · left; simp only [charListLe]; rw [if_pos hxy]
      · by_cases hyx : y < x
        · right; simp only [charListLe]; rw [if_pos hyx]
        · rcases ih ys with h | h
          · left; simp only [charListLe]; rw [if_neg hxy, if_neg hyx]; exact h
          · right; simp only [charListLe]; rw [if_neg hyx, if_neg hxy]; exact h

theorem charListLe_trans : ∀ a b c : List Char, charListLe a b = true →
    charListLe b c = true → charListLe a c = true := by
  intro a
  induction a with
  | nil => intro b c _ _; rfl
  | cons x xs ih =>
    intro b c hab hbc
    cases b with
    | nil => exact absurd hab (by simp [charListLe])
    | cons y ys =>
      cases c with
      | nil => exact absurd hbc (by simp [charListLe])
      | cons z zs =>
        simp only [charListLe] at hab hbc ⊢
        by_cases hxy : x < y
        · by_cases hyz : y < z
          · rw [if_pos (lt_trans hxy hyz)]
          · by_cases hzy : z < y
            · rw [if_neg hyz, if_pos hzy] at hbc; cases hbc
            · have hyzeq : y = z := le_antisymm (not_lt.mp hzy) (not_lt.mp hyz)
              subst hyzeq
              rw [if_pos hxy]
        · by_cases hyx : y < x
          · rw [if_neg hxy, if_pos hyx] at hab; cases hab
          · have hxyeq : x = y := le_antisymm (not_lt.mp hyx) (not_lt.mp hxy)
            subst hxyeq
            rw [if_neg hxy, if_neg hyx] at hab
            by_cases hxz : x < z
            · rw [if_pos hxz]
            · by_cases hzx : z < x
              · rw [if_neg hxz, if_pos hzx] at hbc; cases hbc
              · rw [if_neg hxz, if_neg hzx] at hbc ⊢
                exact ih ys zs hab hbc

theorem charListLe_antisymm : ∀ a b : List Char, charListLe a b = true →
    charListLe b a = true → a = b := by
  intro a
  induction a with
  | nil =>
    intro b _ hba
    cases b with
    | nil => rfl
    | cons y ys => exact absurd hba (by simp [charListLe])
  | cons x xs ih =>
    intro b hab hba
    cases b with
    | nil => exact absurd hab (by simp [charListLe])
    | cons y ys =>
      simp only [charListLe] at hab hba
      by_cases hxy : x < y
      · rw [if_neg (lt_asymm hxy), if_pos hxy] at hba; cases hba
      · by_cases hyx : y < x
        · rw [if_neg hxy, if_pos hyx] at hab; cases hab
        · have hxyeq : x = y := le_antisymm (not_lt.mp hyx) (not_lt.mp hxy)
          subst hxyeq
          rw [if_neg hxy, if_neg hyx] at hab hba
          rw [ih ys hab hba]

theorem string_data_inj {s t : String} (h : s.data = t.data) : s = t := by
  cases s with
  | mk l1 =>
    cases t with
    | mk l2 =>
      rw [show (String.mk l1).data = l1 from rfl,
        show (String.mk l2).data = l2 from rfl] at h
      rw [h]

/-- Order on entries used by `sorted(...)`: `Path` objects in the same
directory compare by their final component string, and Python compares
strings lexicographically by code point. -/
def nameLe (a b : FSEntry) : Prop := charListLe a.name.data b.name.data = true

instance : DecidableRel nameLe := fun a b =>
  inferInstanceAs (Decidable (charListLe a.name.data b.name.data = true))

instance : IsTotal FSEntry nameLe := ⟨fun a b => charListLe_total _ _⟩

instance : IsTrans FSEntry nameLe :=
  ⟨fun _ _ _ h1 h2 => charListLe_trans _ _ _ h1 h2⟩

instance : IsAntisymm FSEntry (fun a b => nameLe a b ∧ a.name ≠ b.name) :=
  ⟨fun _ _ h1 h2 =>
    absurd (string_data_inj (charListLe_antisymm _ _ h1.1 h2.1)) h1.2⟩

/-- Model of Python `sorted` on entries of one directory.  `sorted` is a
comparison sort by `nameLe`; on lists whose names are distinct (always true
of a real directory listing) every such sort returns the same list, here
realised by insertion sort. -/
def sortByName (l : List FSEntry) : List FSEntry := List.insertionSort nameLe l

/-- Filter of the `nodes` comprehension: drop hidden names and the
`excludelist`. -/
def keepEntry (c : FSEntry) : Bool :=
  !(c.name.startsWith ".") && !(excludelist.contains c.name)

/-- Document filter: `p.suffix.lower() == ".fcstd"`. -/
def isFcstdName (c : FSEntry) : Bool := lowerStr (pathSuffix c.name) == ".fcstd"

/-! Mutual size measure on the nested tree, for termination. -/

mutual

def esize : FSEntry → Nat
  | .file _ _ => 1
  | .dir _ _ cs => 1 + lsize cs

def lsize : List FSEntry → Nat
  | [] => 0
  | c :: cs => 1 + esize c + lsize cs

end

theorem lsize_perm {l1 l2 : List FSEntry} (h : l1.Perm l2) :
    lsize l1 = lsize l2 := by
  induction h with
  | nil => rfl
  | cons x _ ih => simp [lsize, ih]
  | swap x y l => simp [lsize]; omega
  | trans _ _ ih1 ih2 => omega

theorem lsize_filter_le (p : FSEntry → Bool) (l : List FSEntry) :
    lsize (l.filter p) ≤ lsize l := by
  induction l with
  | nil => simp [lsize]
  | cons c cs ih => by_cases h : p c <;> simp [List.filter, h, lsize] <;> omega

theorem lsize_sortByName (l : List FSEntry) : lsize (sortByName l) = lsize l :=
  lsize_perm (List.perm_insertionSort nameLe l)

theorem lsize_dirs_lt (cs : List FSEntry) :
    lsize (sortByName (List.filter FSEntry.isDir (List.filter keepEntry cs))) <
      1 + lsize cs := by
  have h1 := lsize_filter_le FSEntry.isDir (List.filter keepEntry cs)
  have h2 := lsize_filter_le keepEntry cs
  rw [lsize_sortByName]
  omega

theorem esize_lt_of_mem (cs : List FSEntry) :
    ∀ {c : FSEntry}, c ∈ cs → esize c < 1 + lsize cs := by
  induction cs with
  | nil => intro c h; cases h
  | cons d ds ih =>
    intro c h
    rcases List.mem_cons.mp h with h' | h'
    · subst h'; simp [lsize]; omega
    · have := ih h'; simp [lsize]; omega

/-- Mem-based induction principle for the nested tree. -/
def FSEntry.recMem {motive : FSEntry → Prop}
    (hfile : ∀ n o, motive (.file n o))
    (hdir : ∀ n ok cs, (∀ c ∈ cs, motive c) → motive (.dir n ok cs)) :
    ∀ e, motive e
  | .file n o => hfile n o
  | .dir n ok cs => hdir n ok cs (fun c hc => FSEntry.recMem hfile hdir c)
termination_by e => esize e
decreasing_by
  have := esize_lt_of_mem _ hc
  simp [esize]
  omega

/-- The cards of the `for fpath in files` loop, in list order. -/
def build_cards (parent siblings : List String) (files : List FSEntry) :
    String :=
  String.join (files.map (fun f => build_card f.outcome parent siblings f.name))

/-- The opening div of a collapsible section. -/
def collapseOpen : String := "<div class=\"collapsable hidden\">\n"

/-- The closing tag emitted for collapsible sections and card grids. -/
def divClose : String := "</div>\n"

/-- The opening div of a card grid. -/
def cardsOpen : String := "<div class=\"cards\">\n"

/-! Model of `build_html`: the recursive traversal.  `dirPath` is the path
of the directory `e` relative to the base (so `[]` for the root call on
`homefolder`).  The mutual list function is the `for fpath in dirs` loop. -/

mutual

/-- Traversal of one entry: nothing for a non-directory; for a directory
the title, then (below the root) the collapsible wrapper, then — if the
listing succeeds — recursion into sorted kept subdirectories followed by
the card grid of sorted kept document files; an unreadable listing stops
after the wrapper. -/
def build_html (dirPath : List String) (e : FSEntry) (level : Nat) : String :=
  match e with
  | .file _ _ => ""
  | .dir nm ok children =>
    let html := build_title nm level ++ (if level > 1 then collapseOpen else "")
    if ok then
      let nodes := children.filter keepEntry
      let dirs := sortByName (nodes.filter FSEntry.isDir)
      let files := sortByName (nodes.filter isFcstdName)
      let siblings := children.map FSEntry.name
      let html := html ++ build_html_dirs dirPath dirs (level + 1)
      let html := html ++
        (if files.isEmpty then ""
         else cardsOpen ++ build_cards dirPath siblings files ++ divClose)
      html ++ (if level > 1 then divClose else "")
    else html
termination_by esize e
decreasing_by
  simp only [esize]
  exact lsize_dirs_lt _

/-- The `for fpath in dirs: html += build_html(fpath, level + 1)` loop. -/
def build_html_dirs (dirPath : List String) (ds : List FSEntry) (level : Nat) :
    String :=
  match ds with
  | [] => ""
  | d :: rest =>
    build_html (dirPath ++ [d.name]) d level ++ build_html_dirs dirPath rest level
termination_by lsize ds
decreasing_by
  all_goals simp [lsize]
  all_goals omega

end

/-- Whether an archive-access outcome wrote a thumbnail file into the cache
directory (the `zfile.read` succeeded and the `open(iconpath, "wb")` write
completed). -/
def writesThumb : ThumbOutcome → Bool
  | .written _ => true
  | _ => false

/-- Cache filenames written by the cards of one `files` loop. -/
def thumb_cards (parent siblings : List String) (files : List FSEntry) :
    List String :=
  files.flatMap (fun f =>
    if siblings.contains f.name && writesThumb f.outcome then
      [get_hashname (parent ++ [f.name])]
    else [])

/-! Model of the side effect of the run on the thumbnail cache directory:
the hashed filenames written during the traversal, in traversal order.
This mirrors `build_html`'s recursion, recording `get_hashname` for every
card whose archive access reaches a completed write. -/

mutual

/-- Thumbnail filenames written while traversing one entry. -/
def thumb_files (dirPath : List String) (e : FSEntry) : List String :=
  match e with
  | .file _ _ => []
  | .dir _ ok children =>
    if ok then
      let nodes := children.filter keepEntry
      let dirs := sortByName (nodes.filter FSEntry.isDir)
      let files := sortByName (nodes.filter isFcstdName)
      let siblings := children.map FSEntry.name
      thumb_files_dirs dirPath dirs ++ thumb_cards dirPath siblings files
    else []
termination_by esize e
decreasing_by
  simp only [esize]
  exact lsize_dirs_lt _

/-- Thumbnail filenames written by the subdirectory loop. -/
def thumb_files_dirs (dirPath : List String) (ds : List FSEntry) :
    List String :=
  match ds with
  | [] => []
  | d :: rest =>
    thumb_files (dirPath ++ [d.name]) d ++ thumb_files_dirs dirPath rest
termination_by lsize ds
decreasing_by
  all_goals simp [lsize]
  all_goals omega

end

/-! Canonical form of a tree: every listing recursively sorted by name.
Two snapshots of the same unchanged directory tree (two runs) differ only
in listing order, i.e. they have the same canonical form. -/

mutual

/-- Recursively sort every directory listing by entry name. -/
def canon : FSEntry → FSEntry
  | .file n o => .file n o
  | .dir n ok cs => .dir n ok (sortByName (canonList cs))
termination_by e => esize e
decreasing_by
  simp [esize]

/-- Canonical forms of a list of entries. -/
def canonList : List FSEntry → List FSEntry
  | [] => []
  | c :: cs => canon c :: canonList cs
termination_by l => lsize l
decreasing_by
  all_goals simp [lsize]
  all_goals omega

end

/-- Duplicate-freedom of a name list. -/
def nodupNames : List String → Bool
  | [] => true
  | x :: xs => !xs.contains x && nodupNames xs

/-! Well-formedness of a snapshot: names inside every directory are
pairwise distinct, as on a real filesystem. -/

mutual

/-- Every directory listing of the tree has pairwise-distinct names. -/
def wellNamed : FSEntry → Bool
  | .file _ _ => true
  | .dir _ _ cs => nodupNames (cs.map FSEntry.name) && wellNamedList cs

/-- Well-namedness of a list of entries. -/
def wellNamedList : List FSEntry → Bool
  | [] => true
  | c :: cs => wellNamed c && wellNamedList cs

end

/-- Replacement of every non-overlapping occurrence of `pat` by `rep`, left
to right, as Python `str.replace` for a nonempty pattern. -/
def replaceAllAux (pat rep : List Char) : List Char → List Char
  | [] => []
  | c :: rest =>
    if pat ≠ [] ∧ pat.isPrefixOf (c :: rest) then
      rep ++ replaceAllAux pat rep ((c :: rest).drop pat.length)
    else c :: replaceAllAux pat rep rest
termination_by l => l.length
decreasing_by
  · rename_i h
    simp [List.length_drop]
    have : pat.length ≥ 1 := by
      cases pat with
      | nil => exact absurd rfl h.1
      | cons p ps => simp
    omega
  · simp

/-- Model of `template.replace(pat, rep)`. -/
def replaceAll (s pat rep : String) : String :=
  String.mk (replaceAllAux pat.data rep.data s.data)

/-- Model of the `__main__` block after reading the template: build the
content from the root, substitute it and the four icon paths into the
template placeholders, yielding the text written to `index.html`. -/
def assemble (template : String) (root : FSEntry) : String :=
  let html := build_html [] root 1
  let out := replaceAll template "<!--contents-->" html
  let out := replaceAll out "<!--listicon-->" (clean_path listicon)
  let out := replaceAll out "<!--gridicon-->" (clean_path gridicon)
  let out := replaceAll out "<!--collapseicon-->" (clean_path collapseicon)
  replaceAll out "<!--expandicon-->" (clean_path expandicon)

/-- Well-formed path components: nonempty, free of '/' and of backslash, as
the components of any real path below the base directory are. -/
def validComponent (s : String) : Bool :=
  !(s == "") && s.data.all (fun c => !(c == '/') && !(c == '\\'))

/-- Components made only of URL-unreserved characters (letters, digits,
'-', '.', '_', '~') and nonempty. -/
def safeComponent (s : String) : Bool :=
  !(s == "") && s.data.all (fun c => isSafeChar c && !(c == '/'))

/-- Lower-case hexadecimal digits, the alphabet of `hexdigest()`. -/
def isHexLower (c : Char) : Bool :=
  ('0' ≤ c && c ≤ '9') || ('a' ≤ c && c ≤ 'f')

/-! Theorems.  First the lemmas about `quote` and `clean_path` (claim C4),
then the remaining claims in order. -/

theorem quoteChar_safe {c : Char} (h : isSafeChar c = true) : quoteChar c = [c] := by
  simp [quoteChar, h]

theorem utf8Bytes_ne_nil (n : Nat) : utf8Bytes n ≠ [] := by
  unfold utf8Bytes
  split_ifs <;> simp

theorem hexUChar_ne_backslash {n : Nat} (hn : n < 16) : hexUChar n ≠ '\\' := by
  interval_cases n <;> decide

theorem hexUChar_ne_slash {n : Nat} (hn : n < 16) : hexUChar n ≠ '/' := by
  interval_cases n <;> decide

theorem mem_percentEncodeByte_ne_backslash {x : Char} {b : Nat}
    (h : x ∈ percentEncodeByte b) : x ≠ '\\' := by
  simp only [percentEncodeByte, List.mem_cons, List.not_mem_nil, or_false] at h
  rcases h with h | h | h
  · subst h; decide
  · subst h; exact hexUChar_ne_backslash (Nat.mod_lt _ (by norm_num))
  · subst h; exact hexUChar_ne_backslash (Nat.mod_lt _ (by norm_num))

theorem mem_quoteChar_ne_backslash {x c : Char} (h : x ∈ quoteChar c) :
    x ≠ '\\' := by
  by_cases hs : isSafeChar c
  · rw [quoteChar_safe hs] at h
    rw [List.mem_singleton] at h
    subst h
    intro hc
    rw [hc] at hs
    exact absurd hs (by decide)
  · simp only [quoteChar, hs, if_neg, Bool.false_eq_true, if_false] at h
    rw [List.mem_flatMap] at h
    obtain ⟨b, _, hb⟩ := h
    exact mem_percentEncodeByte_ne_backslash hb

theorem quote_no_backslash (s : String) : '\\' ∉ (quote s).data := by
  intro h
  rw [quote] at h
  rw [List.mem_flatMap] at h
  obtain ⟨c, _, hc⟩ := h
  exact mem_quoteChar_ne_backslash hc rfl

theorem quoteChar_head_ne_slash {c : Char} (h : c ≠ '/') :
    ∀ x rest, quoteChar c = x :: rest → x ≠ '/' := by
  intro x rest hq
  by_cases hs : isSafeChar c
  · rw [quoteChar_safe hs] at hq
    cases hq
    exact h
  · simp only [quoteChar, hs, Bool.false_eq_true, if_false] at hq
    rcases hu : utf8Bytes c.toNat with _ | ⟨b, bs⟩
    · exact absurd hu (utf8Bytes_ne_nil _)
    · rw [hu] at hq
      simp [percentEncodeByte] at hq
      rw [← hq.1]
      decide

theorem quoteChar_ne_nil (c : Char) : quoteChar c ≠ [] := by
  by_cases hs : isSafeChar c
  · rw [quoteChar_safe hs]; simp
  · simp only [quoteChar, hs, Bool.false_eq_true, if_false]
    rcases hu : utf8Bytes c.toNat with _ | ⟨b, bs⟩
    · exact absurd hu (utf8Bytes_ne_nil _)
    · simp [hu, percentEncodeByte]

theorem quote_head_ne_slash {l : List Char} (h : l.head? ≠ some '/') :
    (l.flatMap quoteChar).head? ≠ some '/' := by
  cases l with
  | nil => simp
  | cons c cs =>
    have hc : c ≠ '/' := by
      intro hc
      rw [hc] at h
      exact h rfl
    rw [List.flatMap_cons]
    rcases hq : quoteChar c with _ | ⟨x, rest⟩
    · exact absurd hq (quoteChar_ne_nil c)
    · simp only [List.cons_append, List.head?_cons, ne_eq, Option.some.injEq]
      exact quoteChar_head_ne_slash hc x rest hq

theorem flatMap_quoteChar_id {l : List Char} (h : ∀ c ∈ l, isSafeChar c) :
    l.flatMap quoteChar = l := by
  induction l with
  | nil => rfl
  | cons c cs ih =>
    rw [List.flatMap_cons, quoteChar_safe (h c (List.mem_cons_self c cs)),
      ih (fun x hx => h x (List.mem_cons_of_mem c hx))]
    rfl

theorem quote_safe_id {s : String} (h : ∀ c ∈ s.data, isSafeChar c) :
    quote s = s := by
  rw [quote, flatMap_quoteChar_id h]

theorem replaceBackslash_id {l : List Char} (h : '\\' ∉ l) :
    replaceBackslash l = l := by
  induction l with
  | nil => rfl
  | cons c cs ih =>
    have hc : ¬ (c == '\\') = true := by
      intro hc
      exact h (by simp [List.mem_cons, eq_of_beq hc])
    simp only [replaceBackslash, List.map_cons, hc, Bool.false_eq_true, if_false]
    rw [show List.map (fun c => if (c == '\\') = true then '/' else c) cs =
      replaceBackslash cs from rfl, ih (fun hm => h (List.mem_cons_of_mem c hm))]

theorem stripSlashChars_id {l : List Char} (h : l.head? ≠ some '/') :
    stripSlashChars l = l := by
  cases l with
  | nil => rfl
  | cons c cs =>
    have hc : c ≠ '/' := by
      intro hc
      rw [hc] at h
      exact h rfl
    simp [stripSlashChars, hc]

theorem data_ne_nil_of_ne_empty {s : String} (h : s ≠ "") : s.data ≠ [] := by
  intro hd
  apply h
  cases s with
  | mk l =>
    rw [show (String.mk l).data = l from rfl] at hd
    rw [hd]

theorem mem_joinSlash {c : Char} {cs : List String}
    (h : c ∈ (joinSlash cs).data) : c = '/' ∨ ∃ s ∈ cs, c ∈ s.data := by
  induction cs with
  | nil => cases h
  | cons s rest ih =>
    cases rest with
    | nil =>
      exact Or.inr ⟨s, List.mem_cons_self s [], h⟩
    | cons r t =>
      simp only [joinSlash, String.data_append] at h
      rcases List.mem_append.mp h with h1 | h2
      · rcases List.mem_append.mp h1 with ha | hb
        · exact Or.inr ⟨s, List.mem_cons_self s (r :: t), ha⟩
        · left
          simpa using hb
      · rcases ih h2 with h3 | ⟨x, hx, hcx⟩
        · exact Or.inl h3
        · exact Or.inr ⟨x, List.mem_cons_of_mem s hx, hcx⟩

theorem joinSlash_head_ne_slash {s : String} {rest : List String}
    (hs : s.data ≠ []) (h : ∀ c ∈ s.data, c ≠ '/') :
    (joinSlash (s :: rest)).data.head? ≠ some '/' := by
  cases rest with
  | nil =>
    cases hd : s.data with
    | nil => exact absurd hd hs
    | cons c cs =>
      have hc : c ∈ s.data := by
        rw [hd]
        exact List.mem_cons_self c cs
      simp only [joinSlash, hd, List.head?_cons, ne_eq, Option.some.injEq]
      exact h c hc
  | cons r t =>
    cases hd : s.data with
    | nil => exact absurd hd hs
    | cons c cs =>
      have hc : c ∈ s.data := by
        rw [hd]
        exact List.mem_cons_self c cs
      simp only [joinSlash, String.data_append, hd, List.cons_append,
        List.head?_cons, ne_eq, Option.some.injEq]
      exact h c hc

theorem joinSlash_no_backslash {cs : List String}
    (h : ∀ s ∈ cs, validComponent s = true) :
    '\\' ∉ (joinSlash cs).data := by
  intro hm
  rcases mem_joinSlash hm with h1 | ⟨x, hx, hcx⟩
  · cases h1
  · have hv := h x hx
    simp only [validComponent, Bool.and_eq_true, List.all_eq_true,
      Bool.not_eq_eq_eq_not, Bool.not_true, beq_eq_false_iff_ne] at hv
    exact (hv.2 _ hcx).2 rfl

theorem joinSlash_all_safe {cs : List String}
    (h : ∀ s ∈ cs, safeComponent s = true) :
    ∀ c ∈ (joinSlash cs).data, isSafeChar c := by
  intro c hc
  rcases mem_joinSlash hc with h1 | ⟨x, hx, hcx⟩
  · rw [h1]
    decide
  · have hv := h x hx
    simp only [safeComponent, Bool.and_eq_true, List.all_eq_true] at hv
    exact (hv.2 c hcx).1

theorem clean_path_string_safe_id {t : String}
    (hall : ∀ c ∈ t.data, isSafeChar c) (hhead : t.data.head? ≠ some '/') :
    clean_path_string t = t := by
  have hnb : '\\' ∉ t.data := by
    intro hm
    have := hall _ hm
    exact absurd this (by decide)
  rw [clean_path_string, replaceBackslash_id hnb, stripSlashChars_id hhead]
  exact quote_safe_id hall

/-- Claim C4, counterexample: `clean_path` is not idempotent under
re-normalisation of its own output for every path inside the base
directory.  For the path with single component "a b.FCStd" the output is
"a%20b.FCStd", and re-normalising that path percent-encodes the '%' again,
giving "a%2520b.FCStd" — a different string. -/
theorem C4_counterexample :
    clean_path ["a b.FCStd"] = "a%20b.FCStd" ∧
    clean_path_string (clean_path ["a b.FCStd"]) = "a%2520b.FCStd" ∧
    clean_path_string (clean_path ["a b.FCStd"]) ≠ clean_path ["a b.FCStd"] :=
  ⟨by decide, by decide, by decide⟩

/-- Claim C4, amended: for every path inside the base directory the output
of `clean_path` contains no backslash; when the path's components are
well formed (nonempty, no '/', no backslash — true of every real path) the
output has no leading slash; and idempotence under re-normalising the
output as a path holds when the components consist of URL-unreserved
characters only, i.e. when percent-encoding leaves the path unchanged.
(Re-normalising the output string as a `Path` is the identity on it, since
the output is a relative slash-separated string.) -/
theorem C4_clean_path_amended (cs : List String) :
    ('\\' ∉ (clean_path cs).data) ∧
    ((∀ s ∈ cs, validComponent s = true) →
      (clean_path cs).data.head? ≠ some '/') ∧
    ((∀ s ∈ cs, safeComponent s = true) →
      clean_path_string (clean_path cs) = clean_path cs) := by
  refine ⟨quote_no_backslash _, ?_, ?_⟩
  · intro hv
    cases cs with
    | nil => decide
    | cons s rest =>
      have hs := hv s (List.mem_cons_self s rest)
      simp only [validComponent, Bool.and_eq_true, List.all_eq_true,
        Bool.not_eq_eq_eq_not, Bool.not_true, beq_eq_false_iff_ne] at hs
      have hhead : (joinSlash (s :: rest)).data.head? ≠ some '/' :=
        joinSlash_head_ne_slash (data_ne_nil_of_ne_empty hs.1)
          (fun c hc => (hs.2 c hc).1)
      show (quote (String.mk (stripSlashChars (replaceBackslash
        (joinSlash (s :: rest)).data)))).data.head? ≠ some '/'
      rw [replaceBackslash_id (joinSlash_no_backslash hv),
        stripSlashChars_id hhead]
      exact quote_head_ne_slash hhead
  · intro hsafe
    have hvalid : ∀ s ∈ cs, validComponent s = true := by
      intro s hs
      have h := hsafe s hs
      simp only [safeComponent, Bool.and_eq_true, List.all_eq_true] at h
      simp only [validComponent, Bool.and_eq_true, List.all_eq_true]
      refine ⟨h.1, fun c hc => ?_⟩
      have hsafec := (h.2 c hc).1
      have hslash := (h.2 c hc).2
      refine ⟨hslash, ?_⟩
      simp only [Bool.not_eq_eq_eq_not, Bool.not_true, beq_eq_false_iff_ne]
      intro hb
      rw [hb] at hsafec
      exact absurd hsafec (by decide)
    have hall := joinSlash_all_safe hsafe
    have hhead : (joinSlash cs).data.head? ≠ some '/' := by
      cases cs with
      | nil => decide
      | cons s rest =>
        have hs := hvalid s (List.mem_cons_self s rest)
        simp only [validComponent, Bool.and_eq_true, List.all_eq_true,
          Bool.not_eq_eq_eq_not, Bool.not_true, beq_eq_false_iff_ne] at hs
        exact joinSlash_head_ne_slash (data_ne_nil_of_ne_empty hs.1)
          (fun c hc => (hs.2 c hc).1)
    have h1 : clean_path cs = joinSlash cs :=
      clean_path_string_safe_id hall hhead
    rw [show clean_path cs = joinSlash cs from h1]
    exact clean_path_string_safe_id hall hhead

set_option maxRecDepth 10000 in
/-- Validation of the MD5 model on an RFC 1321 test vector. -/
theorem md5hex_vector_empty :
    md5hex "" = "d41d8cd98f00b204e9800998ecf8427e" := by decide

set_option maxRecDepth 10000 in
/-- Validation of the MD5 model on a second RFC 1321 test vector. -/
theorem md5hex_vector_abc :
    md5hex "abc" = "900150983cd24fb0d6963f7d28e17f72" := by decide

theorem flatMap_byteHexChars_length (l : List Nat) :
    (l.flatMap byteHexChars).length = 2 * l.length := by
  induction l with
  | nil => rfl
  | cons b bs ih =>
    rw [List.flatMap_cons, List.length_append, ih]
    simp [byteHexChars]
    omega

theorem md5Digest_length (msg : List Nat) : (md5Digest msg).length = 16 := by
  rcases hw : md5Words msg with ⟨a, b, c, d⟩
  simp [md5Digest, hw, wordLEBytes]

theorem md5hex_length (s : String) : (md5hex s).length = 32 := by
  show ((md5Digest (strBytes s)).flatMap byteHexChars).length = 32
  rw [flatMap_byteHexChars_length, md5Digest_length]

theorem hexLChar_isHexLower {n : Nat} (h : n < 16) :
    isHexLower (hexLChar n) = true := by
  interval_cases n <;> decide

theorem mem_md5hex_isHexLower (s : String) :
    ∀ c ∈ (md5hex s).data, isHexLower c = true := by
  intro c hc
  rw [show (md5hex s).data =
    (md5Digest (strBytes s)).flatMap byteHexChars from rfl] at hc
  rw [List.mem_flatMap] at hc
  obtain ⟨b, _, hb⟩ := hc
  simp only [byteHexChars, List.mem_cons, List.not_mem_nil, or_false] at hb
  rcases hb with hb | hb <;> subst hb <;>
    exact hexLChar_isHexLower (Nat.mod_lt _ (by norm_num))

/-- Claim C5: `get_hashname` is the MD5 hex digest of the normalised path
followed by the fixed extension ".png"; the digest part always has length
32 and consists of lower-case hexadecimal digits; and the filename depends
on nothing but the normalised path string (equal normalised paths give
byte-identical filenames — the model is a pure function of the path, with
no per-run state, so the filename is stable within and across runs). -/
theorem C5_get_hashname_shape (fp : List String) :
    get_hashname fp = md5hex (clean_path fp) ++ ".png" ∧
    (md5hex (clean_path fp)).length = 32 ∧
    (∀ c ∈ (md5hex (clean_path fp)).data, isHexLower c = true) ∧
    (∀ fp2 : List String, clean_path fp2 = clean_path fp →
      get_hashname fp2 = get_hashname fp) := by
  refine ⟨rfl, md5hex_length _, mem_md5hex_isHexLower _, ?_⟩
  intro fp2 h
  rw [get_hashname, get_hashname, h]

/-- Claim C5, witness: the shape statement at the concrete document path
`["frame.FCStd"]`. -/
theorem C5_get_hashname_shape_witness :
    get_hashname ["frame.FCStd"] = md5hex (clean_path ["frame.FCStd"]) ++ ".png" ∧
    (md5hex (clean_path ["frame.FCStd"])).length = 32 ∧
    (∀ c ∈ (md5hex (clean_path ["frame.FCStd"])).data, isHexLower c = true) ∧
    get_hashname ["frame.FCStd"] = get_hashname ["frame.FCStd"] := by
  obtain ⟨h1, h2, h3, h4⟩ := C5_get_hashname_shape ["frame.FCStd"]
  exact ⟨h1, h2, h3, h4 ["frame.FCStd"] rfl⟩

/-- Claim C4, witness: the amended statement at the concrete path
`["Arch", "part.FCStd"]`, whose components are valid and safe. -/
theorem C4_clean_path_amended_witness :
    ('\\' ∉ (clean_path ["Arch", "part.FCStd"]).data) ∧
    ((clean_path ["Arch", "part.FCStd"]).data.head? ≠ some '/') ∧
    clean_path_string (clean_path ["Arch", "part.FCStd"]) =
      clean_path ["Arch", "part.FCStd"] := by
  obtain ⟨h1, h2, h3⟩ := C4_clean_path_amended ["Arch", "part.FCStd"]
  exact ⟨h1, h2 (by decide), h3 (by decide)⟩

/-- Claim C8: `build_title` returns the empty string at the root (level 1);
at every depth strictly between 1 and 7 it emits a heading element whose
level equals the depth; from depth 7 on it emits a div whose class names
the level instead of a heading. -/
theorem C8_build_title (n : String) :
    build_title n 1 = "" ∧
    (∀ l : Nat, 1 < l → l < 7 →
      build_title n l =
        "<h" ++ toString l ++ " onclick=\"collapse(this.children[0])\">" ++
        (collapseImg ++ n) ++ "</h" ++ toString l ++ ">\n") ∧
    (∀ l : Nat, 7 ≤ l →
      build_title n l =
        "<div class=\"h" ++ toString l ++
        "\" onclick=\"collapse(this.children[0])\">" ++ (collapseImg ++ n) ++
        "</div>\n") := by
  refine ⟨rfl, ?_, ?_⟩
  · intro l h1 h7
    have hne : l ≠ 1 := by omega
    simp [build_title, hne, h7]
  · intro l h7
    have hne : l ≠ 1 := by omega
    have hge : ¬ l < 7 := by omega
    simp [build_title, hne, hge]

/-- Claim C8, witness: the three clauses at depths 1, 2 and 7. -/
theorem C8_build_title_witness :
    build_title "Arch" 1 = "" ∧
    build_title "Arch" 2 =
      "<h" ++ toString 2 ++ " onclick=\"collapse(this.children[0])\">" ++
      (collapseImg ++ "Arch") ++ "</h" ++ toString 2 ++ ">\n" ∧
    build_title "Arch" 7 =
      "<div class=\"h" ++ toString 7 ++
      "\" onclick=\"collapse(this.children[0])\">" ++ (collapseImg ++ "Arch") ++
      "</div>\n" := by
  obtain ⟨h1, h2, h3⟩ := C8_build_title "Arch"
  exact ⟨h1, h2 2 (by omega) (by omega), h3 7 (by omega)⟩

/-- Claim C7: `get_icon` is total over every archive-access outcome — its
model returns a value (rather than propagating an exception) in all cases;
every failure to open or read the archive and every failure while writing
the thumbnail yields the default icon, and in general the result is either
the default icon or the hashed thumbnail path. -/
theorem C7_get_icon_never_raises (fp : List String) :
    (∀ msg, get_icon fp (ThumbOutcome.openFail msg) = defaulticon) ∧
    (∀ msg, get_icon fp (ThumbOutcome.ioFail msg) = defaulticon) ∧
    (∀ o : ThumbOutcome, get_icon fp o = defaulticon ∨
      get_icon fp o = [imagefolderName, get_hashname fp]) := by
  refine ⟨fun _ => rfl, fun _ => rfl, ?_⟩
  intro o
  cases o with
  | openFail m => exact Or.inl rfl
  | noEntry => exact Or.inl rfl
  | ioFail m => exact Or.inl rfl
  | written ex =>
    cases ex
    · exact Or.inl rfl
    · exact Or.inr rfl

/-- Claim C10: `build_card` for a path whose file does not exist at render
time (its name is not among the parent directory's entries) returns the
empty string: no markup, no links. -/
theorem C10_build_card_missing (o : ThumbOutcome) (parent siblings : List String)
    (fname : String) (h : siblings.contains fname = false) :
    build_card o parent siblings fname = "" := by
  rw [build_card, if_neg]
  rw [h]
  simp

/-- Claim C10, witness: a concrete vanished file. -/
theorem C10_build_card_missing_witness :
    build_card ThumbOutcome.noEntry ["Arch"] ["other.FCStd"] "ghost.FCStd" = "" :=
  C10_build_card_missing ThumbOutcome.noEntry ["Arch"] ["other.FCStd"]
    "ghost.FCStd" (by decide)

/-- Claim C6: for a document whose archive opens but lacks the entry
"thumbnails/Thumbnail.png", `get_icon` returns the configured default icon
path, and the card rendered for such a document carries exactly the
default icon as its icon src. -/
theorem C6_missing_thumbnail_default_icon (fp : List String) :
    get_icon fp ThumbOutcome.noEntry = defaulticon ∧
    (∀ parent siblings fname, siblings.contains fname = true →
      ∃ pre post : String,
        build_card ThumbOutcome.noEntry parent siblings fname =
          pre ++ ("<img class=\"icon\" src=\"" ++ clean_path defaulticon ++
            "\"/>") ++ post) := by
  constructor
  · rfl
  · intro parent siblings fname h
    refine ⟨"<div class=\"card\">" ++ ("<a title=\"FCSTD version\" href=\"" ++
      (baseurl ++ clean_path (parent ++ [fname]) ++ raw) ++ "\">"),
      "<div class=\"name\">" ++ pathStem fname ++ "</div>" ++ "</a>" ++
      "<div class=\"links\">" ++ links_html parent siblings (pathStem fname) ++
      "</div>" ++ "</div>\n", ?_⟩
    rw [build_card, if_pos h]
    simp only []
    rw [show get_icon (parent ++ [fname]) ThumbOutcome.noEntry = defaulticon
      from rfl]
    simp only [String.append_assoc]

/-- Claim C6, witness: the statement at a concrete document and sibling
set. -/
theorem C6_missing_thumbnail_default_icon_witness :
    get_icon ["Arch", "a.FCStd"] ThumbOutcome.noEntry = defaulticon ∧
    ∃ pre post : String,
      build_card ThumbOutcome.noEntry ["Arch"] ["a.FCStd"] "a.FCStd" =
        pre ++ ("<img class=\"icon\" src=\"" ++ clean_path defaulticon ++
          "\"/>") ++ post := by
  obtain ⟨h1, h2⟩ := C6_missing_thumbnail_default_icon ["Arch", "a.FCStd"]
  exact ⟨h1, h2 ["Arch"] ["a.FCStd"] "a.FCStd" (by decide)⟩

theorem countP_le_one_of_nodup_keys {l : List (String × String)} {f : String}
    (h : (l.map Prod.fst).Nodup) : l.countP (fun x => x.1 == f) ≤ 1 := by
  induction l with
  | nil => simp
  | cons x xs ih =>
    rw [List.countP_cons]
    rw [List.map_cons, List.nodup_cons] at h
    by_cases hx : (x.1 == f) = true
    · have hz : xs.countP (fun y => y.1 == f) = 0 := by
        rw [List.countP_eq_zero]
        intro a ha hbeq
        apply h.1
        rw [List.mem_map]
        refine ⟨a, ha, ?_⟩
        rw [eq_of_beq hbeq, eq_of_beq hx]
      rw [hz, hx]
      simp
    · have := ih h.2
      simp only [hx]
      simpa using this

theorem keys_card_links_aux (l : List (String × List String))
    (siblings : List String) (stem : String) :
    ((l.filterMap (fun fe =>
      (fe.2.find? (fun ext => siblings.contains (withSuffix stem ext))).map
        (fun ext => (fe.1, withSuffix stem ext)))).map Prod.fst).Sublist
      (l.map Prod.fst) := by
  induction l with
  | nil => simp
  | cons fe rest ih =>
    rw [List.filterMap_cons]
    cases hfind : fe.2.find?
        (fun ext => siblings.contains (withSuffix stem ext)) with
    | none =>
      simp only [Option.map_none, List.map_cons]
      exact ih.cons fe.1
    | some e =>
      simp only [Option.map_some, List.map_cons]
      exact ih.cons₂ fe.1

theorem card_links_keys_nodup (siblings : List String) (stem : String) :
    ((card_links siblings stem).map Prod.fst).Nodup :=
  (keys_card_links_aux exts siblings stem).nodup (by decide)

/-- Claim C1: the family-links loop of `build_card` emits at most one link
per format family; for each family of `exts` the link, when present, goes
to the candidate sibling `basename.with_suffix(ext)` for the first
extension, in the family's declared order, whose candidate exists in the
directory (`find?` semantics), and a family none of whose candidates
exists gets no link.  Concretely: a directory holding both `part.stp` and
`part.STEP` yields exactly the one STEP link to `part.stp`; a directory
holding `part.FCStd`, `part.step`, `part.stl` and no BREP sibling yields
exactly the STEP and STL links and no BREP link; and for a multi-dot
document `part.v2.FCStd` the probe replaces the stem's own suffix, so
`part.stp` is linked while a sibling named `part.v2.stp` is never
found. -/
theorem C1_card_links_families (siblings : List String) (stem : String) :
    (∀ fam : String,
      (card_links siblings stem).countP (fun l => l.1 == fam) ≤ 1) ∧
    (∀ fam extList, (fam, extList) ∈ exts →
      (card_links siblings stem).lookup fam =
        (extList.find? (fun ext => siblings.contains (withSuffix stem ext))).map
          (fun ext => withSuffix stem ext)) ∧
    card_links ["part.stp", "part.STEP", "part.FCStd"] "part" =
      [("STEP", "part.stp")] ∧
    card_links ["part.FCStd", "part.step", "part.stl"] "part" =
      [("STEP", "part.step"), ("STL", "part.stl")] ∧
    card_links ["part.v2.FCStd", "part.stp"] "part.v2" =
      [("STEP", "part.stp")] ∧
    card_links ["part.v2.FCStd", "part.v2.stp"] "part.v2" = [] := by
  refine ⟨?_, ?_, by decide, by decide, by decide, by decide⟩
  · intro fam
    exact countP_le_one_of_nodup_keys (card_links_keys_nodup siblings stem)
  · intro fam extList hmem
    simp only [exts, List.mem_cons, List.not_mem_nil, or_false,
      Prod.mk.injEq] at hmem
    rcases hs : (".stp" :: [".step", ".STP", ".STEP"]).find?
        (fun ext => siblings.contains (withSuffix stem ext)) with _ | e1 <;>
    rcases hb : (".brp" :: [".brep", ".BRP", ".BREP"]).find?
        (fun ext => siblings.contains (withSuffix stem ext)) with _ | e2 <;>
    rcases hl : (".stl" :: [".STL"]).find?
        (fun ext => siblings.contains (withSuffix stem ext)) with _ | e3 <;>
    rcases hmem with ⟨h1, h2⟩ | ⟨h1, h2⟩ | ⟨h1, h2⟩ <;> subst h1 <;> subst h2 <;>
      simp only [card_links, exts, List.filterMap_cons, List.filterMap_nil] <;>
      rw [hs, hb, hl] <;>
      simp [List.lookup]

/-- Claim C1, witness: the statement applied to the concrete sibling sets
of the specification and to a multi-dot document name, with the STEP
family's table row. -/
theorem C1_card_links_families_witness :
    (card_links ["part.stp", "part.STEP", "part.FCStd"] "part").countP
      (fun l => l.1 == "STEP") ≤ 1 ∧
    (card_links ["part.stp", "part.STEP", "part.FCStd"] "part").lookup "STEP" =
      ([".stp", ".step", ".STP", ".STEP"].find? (fun ext =>
        (["part.stp", "part.STEP", "part.FCStd"] : List String).contains
          (withSuffix "part" ext))).map (fun ext => withSuffix "part" ext) ∧
    card_links ["part.stp", "part.STEP", "part.FCStd"] "part" =
      [("STEP", "part.stp")] ∧
    card_links ["part.FCStd", "part.step", "part.stl"] "part" =
      [("STEP", "part.step"), ("STL", "part.stl")] ∧
    card_links ["part.v2.FCStd", "part.stp"] "part.v2" =
      [("STEP", "part.stp")] ∧
    card_links ["part.v2.FCStd", "part.v2.stp"] "part.v2" = [] := by
  obtain ⟨h1, h2, h3, h4, h5, h6⟩ :=
    C1_card_links_families ["part.stp", "part.STEP", "part.FCStd"] "part"
  exact ⟨h1 "STEP", h2 "STEP" [".stp", ".step", ".STP", ".STEP"] (by decide),
    h3, h4, h5, h6⟩

/-- Claim C2, counterexample: for an unreadable directory below the root,
`build_html` does not return only the title produced so far — at level 2
the returned string is the title followed by the opening collapsible
wrapper emitted before the listing is attempted. -/
theorem C2_counterexample :
    build_html [] (FSEntry.dir "Sub" false []) 2 ≠ build_title "Sub" 2 ∧
    build_html [] (FSEntry.dir "Sub" false []) 2 =
      build_title "Sub" 2 ++ collapseOpen := by
  rw [build_html]
  constructor
  · decide
  · decide

/-- Claim C2, amended: when a directory's listing raises `OSError`,
`build_html` logs and returns exactly the HTML produced so far — the title
plus, at levels below the root, the already-opened collapsible wrapper —
and nothing of the subtree's contents: the result does not depend on the
children at all, and the traversal is total, so the overall run
continues. -/
theorem C2_unreadable_dir (dirPath : List String) (nm : String)
    (cs : List FSEntry) (level : Nat) :
    build_html dirPath (FSEntry.dir nm false cs) level =
      build_title nm level ++ (if level > 1 then collapseOpen else "") ∧
    (∀ cs2 : List FSEntry,
      build_html dirPath (FSEntry.dir nm false cs2) level =
        build_html dirPath (FSEntry.dir nm false cs) level) := by
  constructor
  · rw [build_html]
    simp
  · intro cs2
    rw [build_html, build_html]
    simp

theorem mem_sortByName {c : FSEntry} {l : List FSEntry} :
    c ∈ sortByName l ↔ c ∈ l :=
  (List.perm_insertionSort nameLe l).mem_iff

/-- Claim C9: for a readable directory, `build_html` renders the title,
then (below the root) the collapsible wrapper, then all subdirectory
sections — the kept children that are directories, sorted by name,
rendered recursively at the next level — and only then the directory's own
card grid over the kept children matching the document extension
case-insensitively, sorted by name; both lists are sorted, and an entry
enters them exactly when it survives the hidden-name/excludelist filter
and satisfies the respective test. -/
theorem C9_build_html_readable_dir (dirPath : List String) (nm : String)
    (children : List FSEntry) (level : Nat) :
    (build_html dirPath (FSEntry.dir nm true children) level =
      build_title nm level ++ (if level > 1 then collapseOpen else "") ++
      build_html_dirs dirPath
        (sortByName ((children.filter keepEntry).filter FSEntry.isDir))
        (level + 1) ++
      (if (sortByName ((children.filter keepEntry).filter isFcstdName)).isEmpty
        then ""
        else cardsOpen ++ build_cards dirPath (children.map FSEntry.name)
          (sortByName ((children.filter keepEntry).filter isFcstdName)) ++
          divClose) ++
      (if level > 1 then divClose else "")) ∧
    List.Sorted nameLe
      (sortByName ((children.filter keepEntry).filter FSEntry.isDir)) ∧
    List.Sorted nameLe
      (sortByName ((children.filter keepEntry).filter isFcstdName)) ∧
    (∀ c : FSEntry,
      c ∈ sortByName ((children.filter keepEntry).filter FSEntry.isDir) ↔
        c ∈ children ∧ keepEntry c = true ∧ c.isDir = true) ∧
    (∀ c : FSEntry,
      c ∈ sortByName ((children.filter keepEntry).filter isFcstdName) ↔
        c ∈ children ∧ keepEntry c = true ∧ isFcstdName c = true) ∧
    (∀ c : FSEntry, keepEntry c = true ↔
      (c.name.startsWith "." = false ∧ excludelist.contains c.name = false)) ∧
    (∀ c : FSEntry, isFcstdName c = true ↔
      lowerStr (pathSuffix c.name) = ".fcstd") := by
  refine ⟨?_, ?_, ?_, ?_, ?_, ?_, ?_⟩
  · rw [build_html]
    simp only [if_true]
  · exact List.sorted_insertionSort nameLe _
  · exact List.sorted_insertionSort nameLe _
  · intro c
    rw [mem_sortByName, List.mem_filter, List.mem_filter, and_assoc]
  · intro c
    rw [mem_sortByName, List.mem_filter, List.mem_filter, and_assoc]
  · intro c
    simp [keepEntry]
  · intro c
    simp [isFcstdName]

theorem canonList_eq_map (cs : List FSEntry) : canonList cs = cs.map canon := by
  induction cs with
  | nil => rw [canonList]; rfl
  | cons c rest ih => rw [canonList, ih]; rfl

theorem canon_name (e : FSEntry) : (canon e).name = e.name := by
  cases e with
  | file n o => rw [canon]
  | dir n ok cs => rw [canon]; rfl

theorem canon_isDir (e : FSEntry) : (canon e).isDir = e.isDir := by
  cases e with
  | file n o => rw [canon]
  | dir n ok cs => rw [canon]; rfl

theorem canon_outcome (e : FSEntry) : (canon e).outcome = e.outcome := by
  cases e with
  | file n o => rw [canon]
  | dir n ok cs => rw [canon]; rfl

theorem keepEntry_canon (e : FSEntry) : keepEntry (canon e) = keepEntry e := by
  rw [keepEntry, keepEntry, canon_name]

theorem isFcstdName_canon (e : FSEntry) :
    isFcstdName (canon e) = isFcstdName e := by
  rw [isFcstdName, isFcstdName, canon_name]

theorem nodupNames_iff (l : List String) : nodupNames l = true ↔ l.Nodup := by
  induction l with
  | nil => simp [nodupNames]
  | cons x xs ih =>
    rw [nodupNames, List.nodup_cons, Bool.and_eq_true, ← ih]
    constructor
    · intro ⟨h1, h2⟩
      refine ⟨fun hm => ?_, h2⟩
      rw [Bool.not_eq_eq_eq_not, Bool.not_true] at h1
      rw [show xs.contains x = List.elem x xs from rfl] at h1
      rw [← List.elem_iff (a := x)] at hm
      rw [hm] at h1
      cases h1
    · intro ⟨h1, h2⟩
      refine ⟨?_, h2⟩
      rw [Bool.not_eq_eq_eq_not, Bool.not_true,
        show xs.contains x = List.elem x xs from rfl]
      rcases he : List.elem x xs with _ | _
      · rfl
      · exact absurd (List.elem_iff.mp he) h1

theorem perm_contains {l1 l2 : List String} (h : l1.Perm l2) (a : String) :
    l1.contains a = l2.contains a := by
  have hm := h.mem_iff (a := a)
  by_cases hmem : a ∈ l1
  · have h2 : a ∈ l2 := hm.mp hmem
    rw [show l1.contains a = List.elem a l1 from rfl,
      show l2.contains a = List.elem a l2 from rfl,
      List.elem_iff.mpr hmem, List.elem_iff.mpr h2]
  · have h2 : a ∉ l2 := fun hx => hmem (hm.mpr hx)
    rw [show l1.contains a = List.elem a l1 from rfl,
      show l2.contains a = List.elem a l2 from rfl]
    rcases he1 : List.elem a l1 with _ | _
    · rcases he2 : List.elem a l2 with _ | _
      · rfl
      · exact absurd (List.elem_iff.mp he2) h2
    · exact absurd (List.elem_iff.mp he1) hmem

theorem wellNamedList_mem {cs : List FSEntry} (h : wellNamedList cs = true) :
    ∀ c ∈ cs, wellNamed c = true := by
  induction cs with
  | nil => intro c hc; cases hc
  | cons d ds ih =>
    rw [wellNamedList, Bool.and_eq_true] at h
    intro c hc
    rcases List.mem_cons.mp hc with h1 | h1
    · rw [h1]; exact h.1
    · exact ih h.2 c h1

theorem sortByName_perm (l : List FSEntry) : (sortByName l).Perm l :=
  List.perm_insertionSort nameLe l

theorem sortByName_sorted (l : List FSEntry) :
    List.Sorted nameLe (sortByName l) :=
  List.sorted_insertionSort nameLe l

theorem map_canon_names (cs : List FSEntry) :
    (cs.map canon).map FSEntry.name = cs.map FSEntry.name := by
  rw [List.map_map]
  exact List.map_congr_left (fun a _ => canon_name a)

theorem sorted_map_canon {l : List FSEntry} (h : List.Sorted nameLe l) :
    List.Sorted nameLe (l.map canon) := by
  rw [List.Sorted, List.pairwise_map]
  refine h.imp ?_
  intro a b hab
  show charListLe (canon a).name.data (canon b).name.data = true
  rw [canon_name, canon_name]
  exact hab

theorem sorted_strict_of_sorted_nodup {l : List FSEntry}
    (hs : List.Sorted nameLe l) (hn : (l.map FSEntry.name).Nodup) :
    List.Sorted (fun a b : FSEntry => nameLe a b ∧ a.name ≠ b.name) l := by
  have hne : List.Pairwise (fun a b : FSEntry => a.name ≠ b.name) l := by
    rw [List.Nodup, List.pairwise_map] at hn
    exact hn
  exact List.Pairwise.and hs hne

theorem eq_of_perm_sorted_names {l1 l2 : List FSEntry} (hp : l1.Perm l2)
    (hn : (l1.map FSEntry.name).Nodup)
    (hs1 : List.Sorted nameLe l1) (hs2 : List.Sorted nameLe l2) : l1 = l2 := by
  have hn2 : (l2.map FSEntry.name).Nodup :=
    ((hp.map FSEntry.name).nodup_iff).mp hn
  exact List.eq_of_perm_of_sorted hp (sorted_strict_of_sorted_nodup hs1 hn)
    (sorted_strict_of_sorted_nodup hs2 hn2)

theorem filter_canon_eq (p : FSEntry → Bool) (hp : ∀ e, p (canon e) = p e)
    {cs : List FSEntry} (hn : (cs.map FSEntry.name).Nodup) :
    sortByName ((cs.map canon).filter p) =
      (sortByName (cs.filter p)).map canon := by
  have hfm : (cs.map canon).filter p = (cs.filter p).map canon := by
    rw [List.filter_map]
    congr 1
    exact List.filter_congr (fun a _ => hp a)
  have hperm : (sortByName ((cs.map canon).filter p)).Perm
      ((sortByName (cs.filter p)).map canon) := by
    refine (sortByName_perm _).trans ?_
    rw [hfm]
    exact ((sortByName_perm (cs.filter p)).map canon).symm
  have hnodup0 : ((cs.filter p).map FSEntry.name).Nodup :=
    ((List.filter_sublist cs).map FSEntry.name).nodup hn
  have hn1 : ((sortByName ((cs.map canon).filter p)).map FSEntry.name).Nodup := by
    refine (((sortByName_perm _).map FSEntry.name).nodup_iff).mpr ?_
    rw [hfm, List.map_map]
    rw [show FSEntry.name ∘ canon = FSEntry.name from funext canon_name]
    exact hnodup0
  exact eq_of_perm_sorted_names hperm hn1 (sortByName_sorted _)
    (sorted_map_canon (sortByName_sorted _))

theorem sorted_filter_canon {cs : List FSEntry}
    (hn : (cs.map FSEntry.name).Nodup)
    (p : FSEntry → Bool) (hp : ∀ e, p (canon e) = p e) :
    sortByName (((sortByName (cs.map canon)).filter keepEntry).filter p) =
      (sortByName ((cs.filter keepEntry).filter p)).map canon := by
  rw [List.filter_filter, List.filter_filter]
  have hP : ∀ e, (p (canon e) && keepEntry (canon e)) = (p e && keepEntry e) := by
    intro e
    rw [hp, keepEntry_canon]
  have h1 : (((sortByName (cs.map canon)).filter
      (fun a => p a && keepEntry a))).Perm
      ((cs.map canon).filter (fun a => p a && keepEntry a)) :=
    (sortByName_perm (cs.map canon)).filter _
  have hnodupB : (((cs.map canon).filter
      (fun a => p a && keepEntry a)).map FSEntry.name).Nodup := by
    have hsub : (((cs.map canon).filter
        (fun a => p a && keepEntry a)).map FSEntry.name).Sublist
        ((cs.map canon).map FSEntry.name) :=
      (List.filter_sublist _).map _
    rw [map_canon_names] at hsub
    exact hsub.nodup hn
  have h2 : sortByName ((sortByName (cs.map canon)).filter
      (fun a => p a && keepEntry a)) =
      sortByName ((cs.map canon).filter (fun a => p a && keepEntry a)) := by
    refine eq_of_perm_sorted_names
      ((sortByName_perm _).trans (h1.trans (sortByName_perm _).symm)) ?_
      (sortByName_sorted _) (sortByName_sorted _)
    refine (((sortByName_perm _).map FSEntry.name).nodup_iff).mpr ?_
    exact ((h1.map FSEntry.name).nodup_iff).mpr hnodupB
  rw [h2]
  exact filter_canon_eq _ hP hn

theorem card_links_contains_congr {sib1 sib2 : List String}
    (h : ∀ a, sib1.contains a = sib2.contains a) (stem : String) :
    card_links sib1 stem = card_links sib2 stem := by
  simp only [card_links, h]

theorem links_html_contains_congr (parent : List String)
    {sib1 sib2 : List String}
    (h : ∀ a, sib1.contains a = sib2.contains a) (stem : String) :
    links_html parent sib1 stem = links_html parent sib2 stem := by
  rw [links_html, links_html, card_links_contains_congr h stem]

theorem build_card_siblings_congr (o : ThumbOutcome) (parent : List String)
    {sib1 sib2 : List String}
    (h : ∀ a, sib1.contains a = sib2.contains a) (fname : String) :
    build_card o parent sib1 fname = build_card o parent sib2 fname := by
  rw [build_card, build_card, h fname]
  simp only [links_html_contains_congr parent h]

theorem build_cards_canon (parent : List String) {sib1 sib2 : List String}
    (h : ∀ a, sib1.contains a = sib2.contains a) (fs : List FSEntry) :
    build_cards parent sib1 (fs.map canon) = build_cards parent sib2 fs := by
  rw [build_cards, build_cards, List.map_map]
  congr 1
  apply List.map_congr_left
  intro f _
  show build_card (canon f).outcome parent sib1 (canon f).name = _
  rw [canon_outcome, canon_name]
  exact build_card_siblings_congr f.outcome parent h f.name

theorem thumb_cards_canon (parent : List String) {sib1 sib2 : List String}
    (h : ∀ a, sib1.contains a = sib2.contains a) (fs : List FSEntry) :
    thumb_cards parent sib1 (fs.map canon) = thumb_cards parent sib2 fs := by
  induction fs with
  | nil => rfl
  | cons f rest ih =>
    simp only [thumb_cards, List.map_cons, List.flatMap_cons] at ih ⊢
    rw [canon_name, canon_outcome, h f.name, ih]

theorem build_html_dirs_canon (p : List String) (ds : List FSEntry) (lv : Nat)
    (hIH : ∀ d ∈ ds, build_html (p ++ [d.name]) (canon d) lv =
      build_html (p ++ [d.name]) d lv) :
    build_html_dirs p (ds.map canon) lv = build_html_dirs p ds lv := by
  induction ds with
  | nil => rfl
  | cons d rest ih =>
    rw [show (d :: rest).map canon = canon d :: rest.map canon from rfl]
    rw [build_html_dirs]
    conv_rhs => rw [build_html_dirs]
    rw [canon_name, hIH d (List.mem_cons_self d rest),
      ih (fun x hx => hIH x (List.mem_cons_of_mem d hx))]

theorem thumb_files_dirs_canon (p : List String) (ds : List FSEntry)
    (hIH : ∀ d ∈ ds, thumb_files (p ++ [d.name]) (canon d) =
      thumb_files (p ++ [d.name]) d) :
    thumb_files_dirs p (ds.map canon) = thumb_files_dirs p ds := by
  induction ds with
  | nil => rfl
  | cons d rest ih =>
    rw [show (d :: rest).map canon = canon d :: rest.map canon from rfl]
    rw [thumb_files_dirs]
    conv_rhs => rw [thumb_files_dirs]
    rw [canon_name, hIH d (List.mem_cons_self d rest),
      ih (fun x hx => hIH x (List.mem_cons_of_mem d hx))]

theorem isEmpty_map_canon (l : List FSEntry) :
    (l.map canon).isEmpty = l.isEmpty := by
  cases l <;> rfl

theorem build_html_dir_true (dirPath : List String) (nm : String)
    (children : List FSEntry) (level : Nat) :
    build_html dirPath (FSEntry.dir nm true children) level =
      build_title nm level ++ (if level > 1 then collapseOpen else "") ++
      build_html_dirs dirPath
        (sortByName ((children.filter keepEntry).filter FSEntry.isDir))
        (level + 1) ++
      (if (sortByName ((children.filter keepEntry).filter isFcstdName)).isEmpty
        then ""
        else cardsOpen ++ build_cards dirPath (children.map FSEntry.name)
          (sortByName ((children.filter keepEntry).filter isFcstdName)) ++
          divClose) ++
      (if level > 1 then divClose else "") := by
  rw [build_html]
  simp only [if_true]

theorem thumb_files_dir_true (dirPath : List String) (nm : String)
    (children : List FSEntry) :
    thumb_files dirPath (FSEntry.dir nm true children) =
      thumb_files_dirs dirPath
        (sortByName ((children.filter keepEntry).filter FSEntry.isDir)) ++
      thumb_cards dirPath (children.map FSEntry.name)
        (sortByName ((children.filter keepEntry).filter isFcstdName)) := by
  rw [thumb_files]
  simp only [if_true]

theorem canon_eval (e : FSEntry) : wellNamed e = true →
    ∀ p lv, build_html p (canon e) lv = build_html p e lv ∧
      thumb_files p (canon e) = thumb_files p e := by
  induction e using FSEntry.recMem with
  | hfile n o =>
    intro _ p lv
    constructor
    · rw [canon]
    · rw [canon]
  | hdir n ok cs IH =>
    intro hw p lv
    rw [wellNamed, Bool.and_eq_true] at hw
    have hnodup : (cs.map FSEntry.name).Nodup := (nodupNames_iff _).mp hw.1
    have hwl := wellNamedList_mem hw.2
    rw [canon, canonList_eq_map]
    cases ok with
    | false =>
      constructor
      · rw [build_html]
        conv_rhs => rw [build_html]
        simp
      · rw [thumb_files]
        conv_rhs => rw [thumb_files]
        simp
    | true =>
      have hcont : ∀ a,
          ((sortByName (cs.map canon)).map FSEntry.name).contains a =
          (cs.map FSEntry.name).contains a := by
        intro a
        refine perm_contains ?_ a
        refine ((sortByName_perm (cs.map canon)).map FSEntry.name).trans ?_
        rw [map_canon_names]
      have hdirs := sorted_filter_canon hnodup FSEntry.isDir canon_isDir
      have hfiles := sorted_filter_canon hnodup isFcstdName isFcstdName_canon
      have hmemIH :
          ∀ d ∈ sortByName ((cs.filter keepEntry).filter FSEntry.isDir),
          ∀ p2 l2, (build_html p2 (canon d) l2 = build_html p2 d l2 ∧
            thumb_files p2 (canon d) = thumb_files p2 d) := by
        intro d hd
        have hd2 : d ∈ cs := by
          have hm := mem_sortByName.mp hd
          exact (List.mem_filter.mp ((List.mem_filter.mp hm).1)).1
        exact fun p2 l2 => IH d hd2 (hwl d hd2) p2 l2
      constructor
      · rw [build_html_dir_true, build_html_dir_true, hdirs, hfiles]
        rw [build_html_dirs_canon p _ (lv + 1)
          (fun d hd => (hmemIH d hd (p ++ [d.name]) (lv + 1)).1)]
        rw [isEmpty_map_canon]
        rw [build_cards_canon p hcont]
      · rw [thumb_files_dir_true, thumb_files_dir_true, hdirs, hfiles]
        rw [thumb_files_dirs_canon p _
          (fun d hd => (hmemIH d hd (p ++ [d.name]) 1).2)]
        rw [thumb_cards_canon p hcont]

/-- Claim C3: the generator is deterministic over the directory tree.  Two
runs on an unchanged tree see the same files with the same archive
contents and differ at most in `iterdir()` listing order, i.e. their
snapshots have the same canonical form; then (for trees with distinct
names inside each directory, as on a real filesystem) the assembled output
page is byte-identical and the written thumbnail cache filenames are
identical, in order. -/
theorem C3_two_runs_identical (template : String) (e1 e2 : FSEntry)
    (h1 : wellNamed e1 = true) (h2 : wellNamed e2 = true)
    (hc : canon e1 = canon e2) :
    assemble template e1 = assemble template e2 ∧
    thumb_files [] e1 = thumb_files [] e2 := by
  have hb : build_html [] e1 1 = build_html [] e2 1 := by
    have a1 := (canon_eval e1 h1 [] 1).1
    have a2 := (canon_eval e2 h2 [] 1).1
    rw [← a1, ← a2, hc]
  have ht : thumb_files [] e1 = thumb_files [] e2 := by
    have a1 := (canon_eval e1 h1 [] 1).2
    have a2 := (canon_eval e2 h2 [] 1).2
    rw [← a1, ← a2, hc]
  refine ⟨?_, ht⟩
  rw [assemble, assemble, hb]

/-- Claim C3, witness: the same directory listed in two different orders
produces the same page and the same thumbnail filenames. -/
theorem C3_two_runs_identical_witness :
    assemble "<html><!--contents--></html>"
      (FSEntry.dir "library" true
        [FSEntry.file "b.FCStd" (ThumbOutcome.written true),
         FSEntry.file "a.FCStd" (ThumbOutcome.written true)]) =
    assemble "<html><!--contents--></html>"
      (FSEntry.dir "library" true
        [FSEntry.file "a.FCStd" (ThumbOutcome.written true),
         FSEntry.file "b.FCStd" (ThumbOutcome.written true)]) ∧
    thumb_files []
      (FSEntry.dir "library" true
        [FSEntry.file "b.FCStd" (ThumbOutcome.written true),
         FSEntry.file "a.FCStd" (ThumbOutcome.written true)]) =
    thumb_files []
      (FSEntry.dir "library" true
        [FSEntry.file "a.FCStd" (ThumbOutcome.written true),
         FSEntry.file "b.FCStd" (ThumbOutcome.written true)]) := by
  refine C3_two_runs_identical _ _ _ (by decide) (by decide) ?_
  rw [canon, canon, canonList_eq_map, canonList_eq_map]
  simp only [List.map_cons, List.map_nil, canon]
  rfl

end BuildIndex
